import Mathlib

set_option autoImplicit false

namespace DigiScraper

/-! Shallow embedding of the digidirect-scraper change-detection core:
`Product` (src/scraper.py), `Differ` / `ProductDiff` (src/differ.py), the
snapshot store interface consumed by `main.py` (spec-modelled where the
storage module itself is absent from the sources), and the per-cycle
orchestration of `run_scrape_cycle` in `main.py`. -/

/-- Product record from src/scraper.py (`Product.__init__`): sku, title, price,
original_price, url, image, discount.  Python float prices are embedded as
rationals: the differ only compares them for equality and subtracts them. -/
structure Product where
  sku : String
  title : String
  price : Rat
  original_price : Option Rat
  url : String
  image : String
  discount : Option String
deriving Repr, DecidableEq

/-- Plain key-value representation of a product: the shape produced by
`Product.to_dict`, consumed by `Product.from_dict`, and persisted by the
snapshot store.  An optional field that is absent and one stored as `None`
are embedded alike as `none`, matching `data.get` in `from_dict` which
treats the two identically. -/
structure ProductDict where
  sku : String
  title : String
  price : Rat
  original_price : Option Rat
  url : String
  image : String
  discount : Option String
deriving Repr, DecidableEq

/-- Embedding of `Product.to_dict` (src/scraper.py): every field is written out. -/
def Product.to_dict (p : Product) : ProductDict :=
  ⟨p.sku, p.title, p.price, p.original_price, p.url, p.image, p.discount⟩

/-- Embedding of `Product.from_dict` (src/scraper.py): required keys are read
directly, `original_price` and `discount` via `data.get` (absent ↦ `none`). -/
def Product.from_dict (data : ProductDict) : Product :=
  ⟨data.sku, data.title, data.price, data.original_price, data.url, data.image, data.discount⟩

/-- Embedding of `Product.__eq__` (src/scraper.py): products compare by `sku` only. -/
def Product.eqPy (a b : Product) : Bool :=
  a.sku == b.sku

/-- Embedding of `Product.__hash__` (src/scraper.py): `hash(self.sku)`, for an
arbitrary underlying string hash `h`. -/
def Product.hashPy (h : String → Nat) (p : Product) : Nat :=
  h p.sku

/-! Python `dict` operations used by `Differ.compare`, embedded as insertion-ordered
association lists over string keys: assigning to an existing key overwrites the
value in place (keeping the original position of the key), assigning a fresh key
appends it.  This matches CPython dict semantics; Python set iteration order over
the keys is unspecified, and the embedding fixes it to first-insertion order. -/

/-- Assignment `m[k] = v` on an insertion-ordered map. -/
def setKey {α : Type} : List (String × α) → String → α → List (String × α)
  | [], k, v => [(k, v)]
  | (k0, v0) :: rest, k, v =>
    if k0 = k then (k0, v) :: rest else (k0, v0) :: setKey rest k v

/-- Lookup `m[k]` on an insertion-ordered map. -/
def getKey? {α : Type} : List (String × α) → String → Option α
  | [], _ => none
  | (k0, v0) :: rest, k => if k0 = k then some v0 else getKey? rest k

/-- Membership test `k in m` on an insertion-ordered map. -/
def hasKey {α : Type} (m : List (String × α)) (k : String) : Bool :=
  (getKey? m k).isSome

/-- Dict comprehension `{key(a): val(a) for a in l}`: later entries with the same
key overwrite earlier ones (last write wins). -/
def indexMap {α β : Type} (key : α → String) (val : α → β) (l : List α) : List (String × β) :=
  l.foldl (fun m a => setKey m (key a) (val a)) []

/-- Last element of a list satisfying `p`, if any: the record a last-write-wins
dict keeps for a duplicated key. -/
def lastWith {α : Type} (p : α → Prop) [DecidablePred p] : List α → Option α
  | [] => none
  | a :: rest =>
    match lastWith p rest with
    | some b => some b
    | none => if p a then some a else none

/-- Price-change entry appended by `Differ.compare` (src/differ.py): the current
record, the old price, the new price, and the signed difference (dict key
`change` in the code). -/
structure PriceChange where
  product : Product
  old_price : Rat
  new_price : Rat
  change : Rat
deriving Repr, DecidableEq

/-- Container `ProductDiff` (src/differ.py). -/
structure ProductDiff where
  new_products : List Product
  removed_products : List Product
  price_changes : List PriceChange
deriving Repr, DecidableEq

/-- Embedding of `ProductDiff.has_changes` (src/differ.py). -/
def ProductDiff.has_changes (d : ProductDiff) : Bool :=
  !d.new_products.isEmpty || !d.removed_products.isEmpty || !d.price_changes.isEmpty

/-- Index built by `Differ.compare` over the previous side (src/differ.py line
63): a dict comprehension keyed by the sku field of each raw dictionary, whose
values are the records reconstructed through `Product.from_dict`. -/
def previousIndex (previous_products : List ProductDict) : List (String × Product) :=
  indexMap ProductDict.sku Product.from_dict previous_products

/-- Index built by `Differ.compare` over the current side (src/differ.py line
64): a dict comprehension keyed by sku whose values are the records themselves. -/
def currentIndex (current_products : List Product) : List (String × Product) :=
  indexMap Product.sku id current_products

/-- Embedding of `Differ.compare` (src/differ.py lines 60-90): index both sides by
sku; new = current keys minus previous keys, removed = previous keys minus
current keys, price changes = common keys with differing price.  Python iterates
the key sets (lines 67-76) in hash-dependent, seed-randomized order; the
embedding instead iterates each index in its insertion order.  This
determinization is a modelling choice: it preserves which entries appear, with
what multiplicity and with what fields, but the resulting list ORDER is an
artifact of the embedding and supports no conclusion about the order the code
produces. -/
def Differ.compare (previous_products : List ProductDict)
    (current_products : List Product) : ProductDiff :=
  let previous := previousIndex previous_products
  let current := currentIndex current_products
  ⟨(current.filter (fun kv => !hasKey previous kv.1)).map Prod.snd,
   (previous.filter (fun kv => !hasKey current kv.1)).map Prod.snd,
   current.filterMap (fun kv =>
     match getKey? previous kv.1 with
     | none => none
     | some prev_product =>
       if prev_product.price ≠ kv.2.price then
         some ⟨kv.2, prev_product.price, kv.2.price, kv.2.price - prev_product.price⟩
       else none)⟩

/-- Embedding of `Differ.is_first_run` (src/differ.py lines 92-102):
`len(previous_products) == 0`. -/
def Differ.is_first_run (previous_products : List ProductDict) : Bool :=
  previous_products.length == 0

/-- Error raised when the persisted state exists but cannot be parsed. -/
inductive CorruptStateError where
  | mk : CorruptStateError
deriving Repr, DecidableEq

/-- Persisted snapshot file: absent, holding a parseable list of product
dictionaries, or present but unparseable. -/
inductive StateFile where
  | absent : StateFile
  | valid : List ProductDict → StateFile
  | corrupt : StateFile
deriving Repr, DecidableEq

/-- Modelled from the spec: `Storage.load_state` / `get_products_from_state` —
`main.py` imports `Storage` from `src.storage`, but storage.py is not among the
sources.  Per the spec (§4.2), load returns the persisted records, an empty list
when no snapshot file exists yet, and fails with a `CorruptStateError` when
content exists but cannot be parsed. -/
def Storage.load_state : StateFile → Except CorruptStateError (List ProductDict)
  | StateFile.absent => Except.ok []
  | StateFile.valid records => Except.ok records
  | StateFile.corrupt => Except.error CorruptStateError.mk

/-- Modelled from the spec: `Storage.save_state` — persists the given records as
the new snapshot, fully replacing the previous content (spec §4.2). -/
def Storage.save_state (records : List ProductDict) (_file : StateFile) : StateFile :=
  StateFile.valid records

/-- Outcome classification of one cycle of `run_scrape_cycle` (main.py). -/
inductive CycleStatus where
  | completed : CycleStatus
  | abortedNoProducts : CycleStatus
  | failed : CycleStatus
deriving Repr, DecidableEq

/-- Observable outcome of one cycle: its status, the change report dispatched to
the notifier (`send_diff_notifications`), if any, and the resulting state file. -/
structure CycleOutcome where
  status : CycleStatus
  sentNotification : Option ProductDiff
  stateFile : StateFile
deriving Repr, DecidableEq

/-- Embedding of `run_scrape_cycle` (main.py lines 59-105): load the previous
state (an exception lands in the `except` handler: the cycle fails and neither
saves nor sends a change notification); abort if the scrape returned no
products; on a first run save the baseline without notifying; otherwise compare,
notify when the diff has changes, and save the current records.  Acquisition is
an external collaborator, so the scraped `current_products` is a parameter. -/
def run_scrape_cycle (file : StateFile) (current_products : List Product) : CycleOutcome :=
  match Storage.load_state file with
  | Except.error _ => ⟨CycleStatus.failed, none, file⟩
  | Except.ok previous_products =>
    if current_products.isEmpty then
      ⟨CycleStatus.abortedNoProducts, none, file⟩
    else if Differ.is_first_run previous_products then
      ⟨CycleStatus.completed, none,
        Storage.save_state (current_products.map Product.to_dict) file⟩
    else
      let diff := Differ.compare previous_products current_products
      ⟨CycleStatus.completed,
        if diff.has_changes then some diff else none,
        Storage.save_state (current_products.map Product.to_dict) file⟩

/-! Concrete records used by the examples of the spec and by witnesses. -/

/-- Previous record of the worked spec example: sku "A" at price 100. -/
def dictA100 : ProductDict := ⟨"A", "Alpha", 100, none, "u-a", "", none⟩

/-- Current record of the worked spec example: sku "A" at price 120. -/
def prodA120 : Product := ⟨"A", "Alpha", 120, none, "u-a", "", none⟩

/-- Current record of the worked spec example: sku "B" at price 50. -/
def prodB50 : Product := ⟨"B", "Beta", 50, some 60, "u-b", "img-b", some "save 10"⟩

/-- Record for the first-run spec example: sku "A" at price 10. -/
def prodA10 : Product := ⟨"A", "Alpha", 10, none, "u-a", "", none⟩

/-- Record with the same sku and price as `dictA100` but different title, image
and discount. -/
def prodA100v : Product := ⟨"A", "Alpha mark II", 100, some 130, "u-a2", "img-a2", some "deal"⟩

/-! Helper lemmas about the insertion-ordered map embedding. -/

theorem getKey?_setKey {α : Type} (m : List (String × α)) (k : String) (v : α) (k' : String) :
    getKey? (setKey m k v) k' = if k = k' then some v else getKey? m k' := by
  induction m with
  | nil =>
    by_cases h : k = k' <;> simp [setKey, getKey?, h]
  | cons kv rest ih =>
    obtain ⟨k0, v0⟩ := kv
    by_cases h0 : k0 = k
    · subst h0
      by_cases h1 : k0 = k' <;> simp [setKey, getKey?, h1]
    · by_cases h1 : k0 = k'
      · subst h1
        have hk : ¬ k = k0 := fun h => h0 h.symm
        simp [setKey, getKey?, h0, hk]
      · simp [setKey, getKey?, h0, h1, ih]

theorem hasKey_setKey {α : Type} (m : List (String × α)) (k : String) (v : α) (k' : String) :
    hasKey (setKey m k v) k' = (decide (k = k') || hasKey m k') := by
  simp only [hasKey, getKey?_setKey]
  by_cases h : k = k' <;> simp [h]

theorem getKey?_append {α : Type} (m m' : List (String × α)) (k : String) :
    getKey? (m ++ m') k =
      match getKey? m k with
      | some v => some v
      | none => getKey? m' k := by
  induction m with
  | nil => rfl
  | cons kv rest ih =>
    obtain ⟨k0, v0⟩ := kv
    simp only [List.cons_append, getKey?]
    by_cases h : k0 = k <;> simp [h, ih]

theorem hasKey_append {α : Type} (m m' : List (String × α)) (k : String) :
    hasKey (m ++ m') k = (hasKey m k || hasKey m' k) := by
  simp only [hasKey, getKey?_append]
  cases h : getKey? m k <;> simp [h]

theorem setKey_of_not_hasKey {α : Type} {m : List (String × α)} {k : String} (v : α)
    (h : hasKey m k = false) : setKey m k v = m ++ [(k, v)] := by
  induction m with
  | nil => rfl
  | cons kv rest ih =>
    obtain ⟨k0, v0⟩ := kv
    simp only [hasKey, getKey?] at h
    by_cases h0 : k0 = k
    · simp [h0] at h
    · simp only [setKey, if_neg h0, List.cons_append, List.cons.injEq, true_and]
      exact ih (by simpa [hasKey, h0] using h)

theorem hasKey_cons {α : Type} (k0 : String) (v0 : α) (rest : List (String × α)) (k : String) :
    hasKey ((k0, v0) :: rest) k = if k0 = k then true else hasKey rest k := by
  by_cases h : k0 = k <;> simp [hasKey, getKey?, h]

theorem hasKey_iff_mem_keys {α : Type} (m : List (String × α)) (k : String) :
    hasKey m k = true ↔ k ∈ m.map Prod.fst := by
  induction m with
  | nil => simp [hasKey, getKey?]
  | cons kv rest ih =>
    obtain ⟨k0, v0⟩ := kv
    by_cases h : k0 = k
    · simp [hasKey_cons, h]
    · have hk : ¬ k = k0 := fun hk => h hk.symm
      simp only [hasKey_cons, if_neg h, List.map_cons, List.mem_cons]
      constructor
      · intro hh
        exact Or.inr (ih.mp hh)
      · intro hh
        rcases hh with hh | hh
        · exact absurd hh hk
        · exact ih.mpr hh

theorem keys_setKey {α : Type} (m : List (String × α)) (k : String) (v : α) :
    (setKey m k v).map Prod.fst =
      if hasKey m k then m.map Prod.fst else m.map Prod.fst ++ [k] := by
  induction m with
  | nil => simp [setKey, hasKey, getKey?]
  | cons kv rest ih =>
    obtain ⟨k0, v0⟩ := kv
    by_cases h : k0 = k
    · subst h
      simp [setKey, hasKey_cons]
    · simp only [setKey, if_neg h, List.map_cons, ih, hasKey_cons]
      by_cases hr : hasKey rest k = true <;> simp [hr, h]

theorem mem_of_getKey?_eq_some {α : Type} {m : List (String × α)} {k : String} {v : α}
    (h : getKey? m k = some v) : (k, v) ∈ m := by
  induction m with
  | nil => simp [getKey?] at h
  | cons kv rest ih =>
    obtain ⟨k0, v0⟩ := kv
    by_cases h0 : k0 = k
    · subst h0
      simp [getKey?] at h
      subst h
      exact List.mem_cons_self _ _
    · simp only [getKey?, if_neg h0] at h
      exact List.mem_cons_of_mem _ (ih h)

theorem getKey?_eq_some_of_mem {α : Type} {m : List (String × α)} {k : String} {v : α}
    (hnd : (m.map Prod.fst).Nodup) (h : (k, v) ∈ m) : getKey? m k = some v := by
  induction m with
  | nil => simp at h
  | cons kv rest ih =>
    obtain ⟨k0, v0⟩ := kv
    simp only [List.map_cons, List.nodup_cons] at hnd
    rcases List.mem_cons.mp h with h | h
    · cases h
      simp [getKey?]
    · have hk0 : ¬ k0 = k := by
        intro hk
        apply hnd.1
        rw [hk]
        exact List.mem_map.mpr ⟨(k, v), h, rfl⟩
      simp only [getKey?, if_neg hk0]
      exact ih hnd.2 h

theorem lastWith_eq_some {α : Type} (p : α → Prop) [DecidablePred p] {l : List α} {a : α}
    (h : lastWith p l = some a) : a ∈ l ∧ p a := by
  induction l with
  | nil => simp [lastWith] at h
  | cons b rest ih =>
    cases hr : lastWith p rest with
    | some c =>
      simp only [lastWith, hr] at h
      rw [Option.some_inj] at h
      subst h
      obtain ⟨hm, hp⟩ := ih hr
      exact ⟨List.mem_cons_of_mem _ hm, hp⟩
    | none =>
      simp only [lastWith, hr] at h
      by_cases hb : p b
      · rw [if_pos hb, Option.some_inj] at h
        subst h
        exact ⟨List.mem_cons_self _ _, hb⟩
      · rw [if_neg hb] at h
        exact absurd h (by simp)

theorem lastWith_isSome {α : Type} (p : α → Prop) [DecidablePred p] (l : List α) :
    (lastWith p l).isSome = true ↔ ∃ a ∈ l, p a := by
  induction l with
  | nil => simp [lastWith]
  | cons b rest ih =>
    cases hr : lastWith p rest with
    | some c =>
      simp only [lastWith, hr, Option.isSome_some, true_iff]
      obtain ⟨hm, hp⟩ := lastWith_eq_some p hr
      exact ⟨c, List.mem_cons_of_mem _ hm, hp⟩
    | none =>
      simp only [lastWith, hr] at ih ⊢
      by_cases hb : p b
      · simp only [if_pos hb, Option.isSome_some, true_iff]
        exact ⟨b, List.mem_cons_self _ _, hb⟩
      · simp only [if_neg hb, List.mem_cons]
        rw [ih]
        constructor
        · rintro ⟨a, ha, hp⟩
          exact ⟨a, Or.inr ha, hp⟩
        · rintro ⟨a, ha | ha, hp⟩
          · exact absurd (ha ▸ hp) hb
          · exact ⟨a, ha, hp⟩

theorem getKey?_foldl_setKey {α β : Type} (key : α → String) (val : α → β) (l : List α)
    (m : List (String × β)) (k : String) :
    getKey? (l.foldl (fun m a => setKey m (key a) (val a)) m) k =
      match lastWith (fun a => key a = k) l with
      | some a => some (val a)
      | none => getKey? m k := by
  induction l generalizing m with
  | nil => rfl
  | cons a rest ih =>
    rw [List.foldl_cons, ih]
    cases hr : lastWith (fun a => key a = k) rest with
    | some b => simp [lastWith, hr]
    | none =>
      simp only [lastWith, hr, getKey?_setKey]
      by_cases hk : key a = k <;> simp [hk]

theorem getKey?_indexMap {α β : Type} (key : α → String) (val : α → β) (l : List α)
    (k : String) :
    getKey? (indexMap key val l) k = (lastWith (fun a => key a = k) l).map val := by
  rw [indexMap, getKey?_foldl_setKey]
  cases lastWith (fun a => key a = k) l <;> rfl

theorem hasKey_indexMap {α β : Type} (key : α → String) (val : α → β) (l : List α)
    (k : String) :
    hasKey (indexMap key val l) k = true ↔ k ∈ l.map key := by
  rw [hasKey, getKey?_indexMap]
  constructor
  · intro h
    cases hl : lastWith (fun a => key a = k) l with
    | none => rw [hl] at h; simp at h
    | some a =>
      obtain ⟨hm, hp⟩ := lastWith_eq_some _ hl
      exact List.mem_map.mpr ⟨a, hm, hp⟩
  · intro h
    obtain ⟨a, hm, hp⟩ := List.mem_map.mp h
    have hs := (lastWith_isSome (fun a => key a = k) l).mpr ⟨a, hm, hp⟩
    cases hl : lastWith (fun a => key a = k) l with
    | none => rw [hl] at hs; simp at hs
    | some b => rfl

theorem nodup_keys_foldl_setKey {α β : Type} (key : α → String) (val : α → β) (l : List α)
    (m : List (String × β)) (hm : (m.map Prod.fst).Nodup) :
    ((l.foldl (fun m a => setKey m (key a) (val a)) m).map Prod.fst).Nodup := by
  induction l generalizing m with
  | nil => exact hm
  | cons a rest ih =>
    rw [List.foldl_cons]
    apply ih
    rw [keys_setKey]
    by_cases h : hasKey m (key a) = true
    · rw [if_pos h]
      exact hm
    · rw [if_neg h, List.nodup_append]
      refine ⟨hm, List.nodup_singleton _, ?_⟩
      intro x hx hx'
      rw [List.mem_singleton] at hx'
      rw [hx'] at hx
      exact h ((hasKey_iff_mem_keys m (key a)).mpr hx)

theorem nodup_keys_indexMap {α β : Type} (key : α → String) (val : α → β) (l : List α) :
    ((indexMap key val l).map Prod.fst).Nodup :=
  nodup_keys_foldl_setKey key val l [] (by simp)

theorem mem_setKey {α : Type} {m : List (String × α)} {k : String} {v : α} {kv : String × α}
    (h : kv ∈ setKey m k v) : kv ∈ m ∨ kv = (k, v) := by
  induction m with
  | nil =>
    simp only [setKey, List.mem_singleton] at h
    exact Or.inr h
  | cons kv0 rest ih =>
    obtain ⟨k0, v0⟩ := kv0
    by_cases h0 : k0 = k
    · subst h0
      simp only [setKey, if_pos rfl] at h
      rcases List.mem_cons.mp h with h | h
      · exact Or.inr (by rw [h])
      · exact Or.inl (List.mem_cons_of_mem _ h)
    · simp only [setKey, if_neg h0] at h
      rcases List.mem_cons.mp h with h | h
      · exact Or.inl (by rw [h]; exact List.mem_cons_self _ _)
      · rcases ih h with h | h
        · exact Or.inl (List.mem_cons_of_mem _ h)
        · exact Or.inr h

theorem mem_foldl_setKey {α β : Type} (key : α → String) (val : α → β) (l : List α)
    (m : List (String × β)) {kv : String × β}
    (h : kv ∈ l.foldl (fun m a => setKey m (key a) (val a)) m) :
    kv ∈ m ∨ ∃ a ∈ l, kv = (key a, val a) := by
  induction l generalizing m with
  | nil => exact Or.inl h
  | cons a rest ih =>
    rw [List.foldl_cons] at h
    rcases ih _ h with h | ⟨b, hb, hkv⟩
    · rcases mem_setKey h with h | h
      · exact Or.inl h
      · exact Or.inr ⟨a, List.mem_cons_self _ _, h⟩
    · exact Or.inr ⟨b, List.mem_cons_of_mem _ hb, hkv⟩

theorem mem_indexMap {α β : Type} (key : α → String) (val : α → β) {l : List α}
    {kv : String × β} (h : kv ∈ indexMap key val l) : ∃ a ∈ l, kv = (key a, val a) := by
  rcases mem_foldl_setKey key val l [] h with h | h
  · simp at h
  · exact h

theorem keys_foldl_setKey_sublist {α β : Type} (key : α → String) (val : α → β) (l : List α)
    (m : List (String × β)) :
    ((l.foldl (fun m a => setKey m (key a) (val a)) m).map Prod.fst).Sublist
      (m.map Prod.fst ++ l.map key) := by
  induction l generalizing m with
  | nil => simp
  | cons a rest ih =>
    rw [List.foldl_cons, List.map_cons]
    have h1 := ih (setKey m (key a) (val a))
    have h2 : ((setKey m (key a) (val a)).map Prod.fst ++ rest.map key).Sublist
        ((m.map Prod.fst ++ [key a]) ++ rest.map key) := by
      apply List.Sublist.append_right
      rw [keys_setKey]
      by_cases h : hasKey m (key a) = true
      · simp only [h, if_true]
        exact List.sublist_append_left _ _
      · simp [h]
    have h3 := h1.trans h2
    rwa [List.append_assoc, List.singleton_append] at h3

theorem keys_indexMap_sublist {α β : Type} (key : α → String) (val : α → β) (l : List α) :
    ((indexMap key val l).map Prod.fst).Sublist (l.map key) := by
  simpa using keys_foldl_setKey_sublist key val l []

theorem foldl_setKey_of_fresh {α β : Type} (key : α → String) (val : α → β) (l : List α)
    (m : List (String × β)) (hm : ∀ a ∈ l, hasKey m (key a) = false)
    (hl : (l.map key).Nodup) :
    l.foldl (fun m a => setKey m (key a) (val a)) m
      = m ++ l.map (fun a => (key a, val a)) := by
  induction l generalizing m with
  | nil => simp
  | cons a rest ih =>
    rw [List.foldl_cons, setKey_of_not_hasKey _ (hm a (List.mem_cons_self _ _))]
    rw [List.map_cons] at hl ⊢
    rw [ih]
    · rw [List.append_assoc]
      rfl
    · intro b hb
      rw [hasKey_append]
      have h1 : hasKey m (key b) = false := hm b (List.mem_cons_of_mem _ hb)
      have h2 : hasKey [(key a, val a)] (key b) = false := by
        have hne : ¬ key a = key b := by
          intro he
          rw [List.nodup_cons] at hl
          exact hl.1 (he ▸ List.mem_map.mpr ⟨b, hb, rfl⟩)
        simp [hasKey, getKey?, hne]
      rw [h1, h2]
      rfl
    · exact (List.nodup_cons.mp hl).2

theorem indexMap_of_nodup_keys {α β : Type} (key : α → String) (val : α → β) {l : List α}
    (hl : (l.map key).Nodup) :
    indexMap key val l = l.map (fun a => (key a, val a)) := by
  simpa [indexMap] using foldl_setKey_of_fresh key val l [] (fun a _ => rfl) hl

/-! Lemmas tying the two indexes of `Differ.compare` to the input lists. -/

theorem from_dict_to_dict (p : Product) : Product.from_dict (Product.to_dict p) = p := rfl

theorem from_dict_sku (d : ProductDict) : (Product.from_dict d).sku = d.sku := rfl

theorem mem_currentIndex {cur : List Product} {kv : String × Product}
    (h : kv ∈ currentIndex cur) : kv.1 = kv.2.sku ∧ kv.2 ∈ cur := by
  obtain ⟨a, ha, hkv⟩ := mem_indexMap _ _ h
  rw [hkv]
  exact ⟨rfl, ha⟩

theorem mem_previousIndex {prev : List ProductDict} {kv : String × Product}
    (h : kv ∈ previousIndex prev) :
    kv.1 = kv.2.sku ∧ ∃ d ∈ prev, kv.2 = Product.from_dict d := by
  obtain ⟨d, hd, hkv⟩ := mem_indexMap _ _ h
  rw [hkv]
  exact ⟨(from_dict_sku d).symm, d, hd, rfl⟩

theorem nodup_keys_currentIndex (cur : List Product) :
    ((currentIndex cur).map Prod.fst).Nodup :=
  nodup_keys_indexMap _ _ cur

theorem nodup_keys_previousIndex (prev : List ProductDict) :
    ((previousIndex prev).map Prod.fst).Nodup :=
  nodup_keys_indexMap _ _ prev

theorem getKey?_currentIndex_sku {cur : List Product} {s : String} {c : Product}
    (h : getKey? (currentIndex cur) s = some c) : c.sku = s ∧ c ∈ cur := by
  have hm := mem_currentIndex (mem_of_getKey?_eq_some h)
  exact ⟨hm.1.symm, hm.2⟩

theorem getKey?_previousIndex_sku {prev : List ProductDict} {s : String} {c : Product}
    (h : getKey? (previousIndex prev) s = some c) :
    c.sku = s ∧ ∃ d ∈ prev, c = Product.from_dict d := by
  have hm := mem_previousIndex (mem_of_getKey?_eq_some h)
  exact ⟨hm.1.symm, hm.2⟩

theorem hasKey_currentIndex (cur : List Product) (k : String) :
    hasKey (currentIndex cur) k = true ↔ k ∈ cur.map Product.sku :=
  hasKey_indexMap _ _ cur k

theorem hasKey_previousIndex (prev : List ProductDict) (k : String) :
    hasKey (previousIndex prev) k = true ↔ k ∈ prev.map ProductDict.sku :=
  hasKey_indexMap _ _ prev k

theorem compare_new_products (prev : List ProductDict) (cur : List Product) :
    (Differ.compare prev cur).new_products =
      ((currentIndex cur).filter (fun kv => !hasKey (previousIndex prev) kv.1)).map Prod.snd :=
  rfl

theorem compare_removed_products (prev : List ProductDict) (cur : List Product) :
    (Differ.compare prev cur).removed_products =
      ((previousIndex prev).filter (fun kv => !hasKey (currentIndex cur) kv.1)).map Prod.snd :=
  rfl

theorem compare_price_changes (prev : List ProductDict) (cur : List Product) :
    (Differ.compare prev cur).price_changes =
      (currentIndex cur).filterMap (fun kv =>
        match getKey? (previousIndex prev) kv.1 with
        | none => none
        | some prev_product =>
          if prev_product.price ≠ kv.2.price then
            some ⟨kv.2, prev_product.price, kv.2.price, kv.2.price - prev_product.price⟩
          else none) :=
  rfl

theorem mem_new_products {prev : List ProductDict} {cur : List Product} {p : Product} :
    p ∈ (Differ.compare prev cur).new_products ↔
      getKey? (currentIndex cur) p.sku = some p ∧
        hasKey (previousIndex prev) p.sku = false := by
  rw [compare_new_products]
  constructor
  · intro h
    obtain ⟨kv, hkv, hsnd⟩ := List.mem_map.mp h
    obtain ⟨hmem, hfil⟩ := List.mem_filter.mp hkv
    obtain ⟨hfst, _⟩ := mem_currentIndex hmem
    subst hsnd
    rw [Bool.not_eq_true'] at hfil
    rw [← hfst]
    exact ⟨getKey?_eq_some_of_mem (nodup_keys_currentIndex cur) hmem, hfil⟩
  · rintro ⟨hget, hhas⟩
    apply List.mem_map.mpr
    refine ⟨(p.sku, p), List.mem_filter.mpr ⟨mem_of_getKey?_eq_some hget, ?_⟩, rfl⟩
    rw [Bool.not_eq_true', hhas]

theorem mem_removed_products {prev : List ProductDict} {cur : List Product} {p : Product} :
    p ∈ (Differ.compare prev cur).removed_products ↔
      getKey? (previousIndex prev) p.sku = some p ∧
        hasKey (currentIndex cur) p.sku = false := by
  rw [compare_removed_products]
  constructor
  · intro h
    obtain ⟨kv, hkv, hsnd⟩ := List.mem_map.mp h
    obtain ⟨hmem, hfil⟩ := List.mem_filter.mp hkv
    obtain ⟨hfst, _⟩ := mem_previousIndex hmem
    subst hsnd
    rw [Bool.not_eq_true'] at hfil
    rw [← hfst]
    exact ⟨getKey?_eq_some_of_mem (nodup_keys_previousIndex prev) hmem, hfil⟩
  · rintro ⟨hget, hhas⟩
    apply List.mem_map.mpr
    refine ⟨(p.sku, p), List.mem_filter.mpr ⟨mem_of_getKey?_eq_some hget, ?_⟩, rfl⟩
    rw [Bool.not_eq_true', hhas]

theorem mem_price_changes {prev : List ProductDict} {cur : List Product} {pc : PriceChange} :
    pc ∈ (Differ.compare prev cur).price_changes ↔
      ∃ c pd : Product, getKey? (currentIndex cur) c.sku = some c ∧
        getKey? (previousIndex prev) c.sku = some pd ∧
        pd.price ≠ c.price ∧
        pc = ⟨c, pd.price, c.price, c.price - pd.price⟩ := by
  rw [compare_price_changes]
  rw [List.mem_filterMap]
  constructor
  · rintro ⟨kv, hkv, hf⟩
    obtain ⟨hfst, _⟩ := mem_currentIndex hkv
    cases hp : getKey? (previousIndex prev) kv.1 with
    | none =>
      rw [hp] at hf
      exact absurd hf (by simp)
    | some pd =>
      rw [hp] at hf
      have hf' : (if pd.price ≠ kv.2.price then
          some (⟨kv.2, pd.price, kv.2.price, kv.2.price - pd.price⟩ : PriceChange)
          else none) = some pc := hf
      by_cases hne : pd.price ≠ kv.2.price
      · rw [if_pos hne, Option.some_inj] at hf'
        refine ⟨kv.2, pd, ?_, ?_, hne, hf'.symm⟩
        · apply getKey?_eq_some_of_mem (nodup_keys_currentIndex cur)
          rw [← hfst]
          exact hkv
        · rw [← hfst]
          exact hp
      · rw [if_neg hne] at hf'
        exact absurd hf' (by simp)
  · rintro ⟨c, pd, hc, hpd, hne, hpc⟩
    refine ⟨(c.sku, c), mem_of_getKey?_eq_some hc, ?_⟩
    rw [hpd]
    have hstep : (if pd.price ≠ c.price then
        some (⟨c, pd.price, c.price, c.price - pd.price⟩ : PriceChange)
        else none) = some pc := by
      rw [if_pos hne, hpc]
    exact hstep

theorem map_filterMap_sublist {α β γ : Type} (f : α → Option β) (g : β → γ) (h : α → γ)
    (l : List α) (hfg : ∀ a ∈ l, ∀ b, f a = some b → g b = h a) :
    ((l.filterMap f).map g).Sublist (l.map h) := by
  induction l with
  | nil => simp
  | cons a rest ih =>
    rw [List.filterMap_cons, List.map_cons]
    cases hf : f a with
    | none =>
      exact (ih (fun b hb => hfg b (List.mem_cons_of_mem _ hb))).cons _
    | some b =>
      rw [List.map_cons, hfg a (List.mem_cons_self _ _) b hf]
      exact (ih (fun x hx => hfg x (List.mem_cons_of_mem _ hx))).cons₂ _

theorem new_products_skus_sublist (prev : List ProductDict) (cur : List Product) :
    (((Differ.compare prev cur).new_products).map Product.sku).Sublist
      ((currentIndex cur).map Prod.fst) := by
  rw [compare_new_products, List.map_map]
  have he : ((currentIndex cur).filter (fun kv => !hasKey (previousIndex prev) kv.1)).map
        (Product.sku ∘ Prod.snd)
      = ((currentIndex cur).filter (fun kv => !hasKey (previousIndex prev) kv.1)).map
        Prod.fst := by
    apply List.map_congr_left
    intro kv hkv
    exact (mem_currentIndex (List.mem_filter.mp hkv).1).1.symm
  rw [he]
  exact List.Sublist.map _ (List.filter_sublist _)

theorem removed_products_skus_sublist (prev : List ProductDict) (cur : List Product) :
    (((Differ.compare prev cur).removed_products).map Product.sku).Sublist
      ((previousIndex prev).map Prod.fst) := by
  rw [compare_removed_products, List.map_map]
  have he : ((previousIndex prev).filter (fun kv => !hasKey (currentIndex cur) kv.1)).map
        (Product.sku ∘ Prod.snd)
      = ((previousIndex prev).filter (fun kv => !hasKey (currentIndex cur) kv.1)).map
        Prod.fst := by
    apply List.map_congr_left
    intro kv hkv
    exact (mem_previousIndex (List.mem_filter.mp hkv).1).1.symm
  rw [he]
  exact List.Sublist.map _ (List.filter_sublist _)

theorem price_changes_skus_sublist (prev : List ProductDict) (cur : List Product) :
    (((Differ.compare prev cur).price_changes).map (fun pc => pc.product.sku)).Sublist
      ((currentIndex cur).map Prod.fst) := by
  rw [compare_price_changes]
  apply map_filterMap_sublist
  intro kv hkv pc hf
  obtain ⟨hfst, _⟩ := mem_currentIndex hkv
  cases hp : getKey? (previousIndex prev) kv.1 with
  | none =>
    rw [hp] at hf
    exact absurd hf (by simp)
  | some pd =>
    rw [hp] at hf
    have hf' : (if pd.price ≠ kv.2.price then
        some (⟨kv.2, pd.price, kv.2.price, kv.2.price - pd.price⟩ : PriceChange)
        else none) = some pc := hf
    by_cases hne : pd.price ≠ kv.2.price
    · rw [if_pos hne, Option.some_inj] at hf'
      rw [← hf']
      exact hfst.symm
    · rw [if_neg hne] at hf'
      exact absurd hf' (by simp)

theorem nodup_new_products_skus (prev : List ProductDict) (cur : List Product) :
    (((Differ.compare prev cur).new_products).map Product.sku).Nodup :=
  (nodup_keys_currentIndex cur).sublist (new_products_skus_sublist prev cur)

theorem nodup_removed_products_skus (prev : List ProductDict) (cur : List Product) :
    (((Differ.compare prev cur).removed_products).map Product.sku).Nodup :=
  (nodup_keys_previousIndex prev).sublist (removed_products_skus_sublist prev cur)

theorem nodup_price_changes_skus (prev : List ProductDict) (cur : List Product) :
    (((Differ.compare prev cur).price_changes).map (fun pc => pc.product.sku)).Nodup :=
  (nodup_keys_currentIndex cur).sublist (price_changes_skus_sublist prev cur)

theorem keys_currentIndex_sublist (cur : List Product) :
    ((currentIndex cur).map Prod.fst).Sublist (cur.map Product.sku) :=
  keys_indexMap_sublist _ _ cur

theorem keys_previousIndex_sublist (prev : List ProductDict) :
    ((previousIndex prev).map Prod.fst).Sublist (prev.map ProductDict.sku) :=
  keys_indexMap_sublist _ _ prev

/-! Claim theorems. -/

/-- C1: `Differ.compare` emits a price-change entry exactly for each sku present
in both indexed sides whose current price differs from its previous price under
exact comparison, each entry carrying the current record, the old price, the new
price, and a delta equal to new minus old; each such sku is reported once.  In
particular, for previous = [sku "A" at 100] and current = [sku "A" at 120,
sku "B" at 50], the report is new = [B], removed = [], and one price change with
old 100, new 120, delta 20. -/
theorem compare_price_changes_spec :
    (∀ (prev : List ProductDict) (cur : List Product) (pc : PriceChange),
      pc ∈ (Differ.compare prev cur).price_changes ↔
        ∃ c pd : Product, getKey? (currentIndex cur) c.sku = some c ∧
          getKey? (previousIndex prev) c.sku = some pd ∧
          pd.price ≠ c.price ∧
          pc = ⟨c, pd.price, c.price, c.price - pd.price⟩)
    ∧ (∀ (prev : List ProductDict) (cur : List Product),
        (((Differ.compare prev cur).price_changes).map (fun pc => pc.product.sku)).Nodup)
    ∧ Differ.compare [dictA100] [prodA120, prodB50] =
        ⟨[prodB50], [], [⟨prodA120, 100, 120, 20⟩]⟩ := by
  refine ⟨fun prev cur pc => mem_price_changes, nodup_price_changes_skus, ?_⟩
  have hpc : Differ.compare [dictA100] [prodA120, prodB50] =
      ⟨[prodB50], [], [⟨prodA120, 100, 120, (120 : Rat) - 100⟩]⟩ := rfl
  rw [show (120 : Rat) - 100 = 20 by norm_num] at hpc
  exact hpc

/-- C2: on inputs whose sku sets are disjoint, `Differ.compare` classifies the
whole current side as new and the whole previous side as removed, with no price
changes: the sku sets of `new_products` and of the current input agree, the sku
sets of `removed_products` and of the previous input agree, `price_changes` is
empty, and for duplicate-free inputs the output lists are exactly the current
list and the previous list (reconstructed through `from_dict`). -/
theorem compare_disjoint_inputs_spec :
    ∀ (prev : List ProductDict) (cur : List Product),
      (∀ s ∈ cur.map Product.sku, s ∉ prev.map ProductDict.sku) →
      (∀ s : String,
        s ∈ ((Differ.compare prev cur).new_products).map Product.sku ↔
          s ∈ cur.map Product.sku)
      ∧ (∀ s : String,
        s ∈ ((Differ.compare prev cur).removed_products).map Product.sku ↔
          s ∈ prev.map ProductDict.sku)
      ∧ (Differ.compare prev cur).price_changes = []
      ∧ ((cur.map Product.sku).Nodup → (prev.map ProductDict.sku).Nodup →
          Differ.compare prev cur = ⟨cur, prev.map Product.from_dict, []⟩) := by
  intro prev cur hdis
  have hknew : ∀ kv ∈ currentIndex cur, hasKey (previousIndex prev) kv.1 = false := by
    intro kv hkv
    obtain ⟨hfst, hmem⟩ := mem_currentIndex hkv
    by_contra hct
    rw [Bool.not_eq_false] at hct
    exact hdis kv.1 (List.mem_map.mpr ⟨kv.2, hmem, hfst.symm⟩)
      ((hasKey_previousIndex prev kv.1).mp hct)
  have hkrem : ∀ kv ∈ previousIndex prev, hasKey (currentIndex cur) kv.1 = false := by
    intro kv hkv
    obtain ⟨hfst, d, hd, hval⟩ := mem_previousIndex hkv
    by_contra hct
    rw [Bool.not_eq_false] at hct
    have hks : kv.1 = d.sku := by rw [hfst, hval, from_dict_sku]
    exact hdis kv.1 ((hasKey_currentIndex cur kv.1).mp hct)
      (List.mem_map.mpr ⟨d, hd, hks.symm⟩)
  have hpcnil : (Differ.compare prev cur).price_changes = [] := by
    rw [compare_price_changes, List.filterMap_eq_nil_iff]
    intro kv hkv
    have hk := hknew kv hkv
    cases hg : getKey? (previousIndex prev) kv.1 with
    | none => rfl
    | some v =>
      rw [hasKey, hg] at hk
      exact absurd hk (by simp)
  refine ⟨?_, ?_, hpcnil, ?_⟩
  · intro s
    constructor
    · intro hs
      obtain ⟨p, hp, hps⟩ := List.mem_map.mp hs
      obtain ⟨hg, _⟩ := mem_new_products.mp hp
      rw [← hps]
      exact (hasKey_currentIndex cur p.sku).mp (by rw [hasKey, hg]; rfl)
    · intro hs
      have hk := (hasKey_currentIndex cur s).mpr hs
      rw [hasKey] at hk
      cases hg : getKey? (currentIndex cur) s with
      | none => rw [hg] at hk; exact absurd hk (by simp)
      | some c =>
        obtain ⟨hcs, _⟩ := getKey?_currentIndex_sku hg
        have hmem : c ∈ (Differ.compare prev cur).new_products := by
          apply mem_new_products.mpr
          refine ⟨by rw [hcs]; exact hg, ?_⟩
          have := hknew (s, c) (mem_of_getKey?_eq_some hg)
          rw [hcs]
          exact this
        exact List.mem_map.mpr ⟨c, hmem, hcs⟩
  · intro s
    constructor
    · intro hs
      obtain ⟨p, hp, hps⟩ := List.mem_map.mp hs
      obtain ⟨hg, _⟩ := mem_removed_products.mp hp
      rw [← hps]
      exact (hasKey_previousIndex prev p.sku).mp (by rw [hasKey, hg]; rfl)
    · intro hs
      have hk := (hasKey_previousIndex prev s).mpr hs
      rw [hasKey] at hk
      cases hg : getKey? (previousIndex prev) s with
      | none => rw [hg] at hk; exact absurd hk (by simp)
      | some c =>
        obtain ⟨hcs, _⟩ := getKey?_previousIndex_sku hg
        have hmem : c ∈ (Differ.compare prev cur).removed_products := by
          apply mem_removed_products.mpr
          refine ⟨by rw [hcs]; exact hg, ?_⟩
          have := hkrem (s, c) (mem_of_getKey?_eq_some hg)
          rw [hcs]
          exact this
        exact List.mem_map.mpr ⟨c, hmem, hcs⟩
  · intro hcur hprev
    have hci : currentIndex cur = cur.map (fun p => (p.sku, p)) :=
      indexMap_of_nodup_keys _ _ hcur
    have hpi : previousIndex prev = prev.map (fun d => (d.sku, Product.from_dict d)) :=
      indexMap_of_nodup_keys _ _ hprev
    have hnew : (Differ.compare prev cur).new_products = cur := by
      rw [compare_new_products]
      have hfil : (currentIndex cur).filter (fun kv => !hasKey (previousIndex prev) kv.1)
          = currentIndex cur := by
        rw [List.filter_eq_self]
        intro kv hkv
        rw [Bool.not_eq_true', hknew kv hkv]
      rw [hfil, hci, List.map_map]
      have h1 : cur.map (Prod.snd ∘ fun p : Product => (p.sku, p)) = cur.map id :=
        List.map_congr_left (fun p _ => rfl)
      rw [h1, List.map_id]
    have hrem : (Differ.compare prev cur).removed_products = prev.map Product.from_dict := by
      rw [compare_removed_products]
      have hfil : (previousIndex prev).filter (fun kv => !hasKey (currentIndex cur) kv.1)
          = previousIndex prev := by
        rw [List.filter_eq_self]
        intro kv hkv
        rw [Bool.not_eq_true', hkrem kv hkv]
      rw [hfil, hpi, List.map_map]
      exact List.map_congr_left (fun d _ => rfl)
    have hsplit : Differ.compare prev cur =
        ⟨(Differ.compare prev cur).new_products, (Differ.compare prev cur).removed_products,
          (Differ.compare prev cur).price_changes⟩ := rfl
    rw [hsplit, hnew, hrem, hpcnil]

/-- C2 witness: with previous = [sku "A"] and current = [sku "B"] the whole
current side is new and the whole previous side is removed. -/
theorem compare_disjoint_inputs_spec_witness :
    Differ.compare [dictA100] [prodB50] =
      ⟨[prodB50], [Product.from_dict dictA100], []⟩ :=
  ((compare_disjoint_inputs_spec [dictA100] [prodB50] (by decide)).2.2.2 (by decide) (by decide))

/-- C3: product identity is defined solely by sku — `__eq__` holds exactly when
the skus agree and `__hash__` depends on the sku alone — and consequently, when
the record a sku resolves to on each side carries the same price, `Differ.compare`
reports neither a price change nor a new nor a removed entry for that sku,
whatever the other fields are. -/
theorem product_identity_sku_spec :
    (∀ a b : Product, Product.eqPy a b = true ↔ a.sku = b.sku)
    ∧ (∀ (h : String → Nat) (a b : Product), a.sku = b.sku →
        Product.hashPy h a = Product.hashPy h b)
    ∧ (∀ (prev : List ProductDict) (cur : List Product) (s : String) (c pd : Product),
        getKey? (currentIndex cur) s = some c →
        getKey? (previousIndex prev) s = some pd →
        pd.price = c.price →
        (∀ pc ∈ (Differ.compare prev cur).price_changes, pc.product.sku ≠ s)
        ∧ (∀ p ∈ (Differ.compare prev cur).new_products, p.sku ≠ s)
        ∧ (∀ p ∈ (Differ.compare prev cur).removed_products, p.sku ≠ s)) := by
  refine ⟨?_, ?_, ?_⟩
  · intro a b
    simp [Product.eqPy]
  · intro h a b hab
    rw [Product.hashPy, Product.hashPy, hab]
  · intro prev cur s c pd hc hpd hpr
    refine ⟨?_, ?_, ?_⟩
    · intro pc hpc hs
      obtain ⟨c', pd', hc', hpd', hne, hpce⟩ := mem_price_changes.mp hpc
      have hs' : c'.sku = s := by rw [hpce] at hs; exact hs
      have hcc : c' = c := by
        apply Option.some_inj.mp
        rw [← hc, ← hc', hs']
      have hpdd : pd' = pd := by
        apply Option.some_inj.mp
        rw [← hpd, ← hpd', hs']
      rw [hcc, hpdd] at hne
      exact hne hpr
    · intro p hp hs
      obtain ⟨_, hh⟩ := mem_new_products.mp hp
      rw [hs, hasKey, hpd] at hh
      exact absurd hh (by simp)
    · intro p hp hs
      obtain ⟨_, hh⟩ := mem_removed_products.mp hp
      rw [hs, hasKey, hc] at hh
      exact absurd hh (by simp)

/-- C3 witness: `prodA100v` differs from the persisted "A" record in title,
original price, url, image and discount but has the same sku and price, so the
comparison reports nothing for sku "A". -/
theorem product_identity_sku_spec_witness :
    Product.eqPy prodA100v prodA120 = true
    ∧ Product.hashPy String.length prodA100v = Product.hashPy String.length prodA120
    ∧ (∀ pc ∈ (Differ.compare [dictA100] [prodA100v]).price_changes,
        pc.product.sku ≠ "A") := by
  refine ⟨?_, ?_, ?_⟩
  · exact (product_identity_sku_spec.1 prodA100v prodA120).mpr rfl
  · exact product_identity_sku_spec.2.1 String.length prodA100v prodA120 rfl
  · exact (product_identity_sku_spec.2.2 [dictA100] [prodA100v] "A" prodA100v
      (Product.from_dict dictA100) rfl rfl rfl).1

/-- C4: `Differ.is_first_run` holds exactly when the previous collection is
empty, and a cycle whose loaded previous state is empty and whose scrape is
non-empty completes with no change notification dispatched while the current
records are saved as the new snapshot. -/
theorem first_run_spec :
    (∀ prev : List ProductDict, Differ.is_first_run prev = true ↔ prev = [])
    ∧ (∀ (file : StateFile) (prev : List ProductDict) (cur : List Product),
        Storage.load_state file = Except.ok prev → prev = [] → cur ≠ [] →
        run_scrape_cycle file cur =
          ⟨CycleStatus.completed, none, StateFile.valid (cur.map Product.to_dict)⟩) := by
  constructor
  · intro prev
    rw [Differ.is_first_run]
    simp [List.length_eq_zero]
  · intro file prev cur hload hprev hcur
    subst hprev
    cases cur with
    | nil => exact absurd rfl hcur
    | cons a l =>
      simp only [run_scrape_cycle, hload]
      rfl

/-- C4 witness: previous = [], current = [sku "A" at price 10]: first run holds,
nothing is notified, and the snapshot is saved with A. -/
theorem first_run_spec_witness :
    Differ.is_first_run ([] : List ProductDict) = true
    ∧ run_scrape_cycle (StateFile.valid []) [prodA10] =
        ⟨CycleStatus.completed, none, StateFile.valid [Product.to_dict prodA10]⟩ := by
  constructor
  · exact (first_run_spec.1 []).mpr rfl
  · exact first_run_spec.2 (StateFile.valid []) [] [prodA10] rfl rfl (by simp)

/-- C5: a cycle whose acquisition returns zero records aborts before saving or
notifying: the state file is unchanged and no change notification is sent. -/
theorem empty_scrape_aborts_spec :
    ∀ (file : StateFile) (prev : List ProductDict),
      Storage.load_state file = Except.ok prev →
      run_scrape_cycle file [] = ⟨CycleStatus.abortedNoProducts, none, file⟩ := by
  intro file prev hload
  simp only [run_scrape_cycle, hload]
  rfl

/-- C5 witness: with a prior snapshot holding "A" and an empty scrape, the cycle
aborts and the snapshot file is exactly the prior one. -/
theorem empty_scrape_aborts_spec_witness :
    run_scrape_cycle (StateFile.valid [dictA100]) [] =
      ⟨CycleStatus.abortedNoProducts, none, StateFile.valid [dictA100]⟩ :=
  empty_scrape_aborts_spec (StateFile.valid [dictA100]) [dictA100] rfl

/-- C6: loading a corrupt state file fails with `CorruptStateError`, and a cycle
run against a corrupt state file reports failure with no change notification
dispatched and no save — in particular it does not proceed as a first run, which
would complete and overwrite the snapshot. -/
theorem corrupt_state_spec :
    Storage.load_state StateFile.corrupt = Except.error CorruptStateError.mk
    ∧ ∀ cur : List Product,
        run_scrape_cycle StateFile.corrupt cur =
          ⟨CycleStatus.failed, none, StateFile.corrupt⟩ :=
  ⟨rfl, fun _ => rfl⟩

/-- C8: duplicate skus within one side never crash `Differ.compare`; indexing is
last-write-wins — the indexed record for a key is the last input record bearing
that sku — and each output list mentions a sku at most once.  Concretely,
indexing ["A" at 120, "A" at 10] resolves "A" to the record listed last. -/
theorem duplicate_sku_lww_spec :
    (∀ (cur : List Product) (k : String),
      getKey? (currentIndex cur) k = lastWith (fun p => p.sku = k) cur)
    ∧ (∀ (prev : List ProductDict) (k : String),
      getKey? (previousIndex prev) k =
        (lastWith (fun d => d.sku = k) prev).map Product.from_dict)
    ∧ (∀ (prev : List ProductDict) (cur : List Product),
        (((Differ.compare prev cur).new_products).map Product.sku).Nodup
        ∧ (((Differ.compare prev cur).removed_products).map Product.sku).Nodup
        ∧ (((Differ.compare prev cur).price_changes).map
            (fun pc => pc.product.sku)).Nodup)
    ∧ getKey? (currentIndex [prodA120, prodA10]) "A" = some prodA10 := by
  refine ⟨?_, ?_, ?_, rfl⟩
  · intro cur k
    rw [currentIndex, getKey?_indexMap]
    cases lastWith (fun p => p.sku = k) cur <;> rfl
  · intro prev k
    exact getKey?_indexMap _ _ prev k
  · intro prev cur
    exact ⟨nodup_new_products_skus prev cur, nodup_removed_products_skus prev cur,
      nodup_price_changes_skus prev cur⟩

/-- C9: serialization round-trips — `from_dict` inverts `to_dict` on every
record (all seven fields, optional ones included), and saving any non-empty
record list then loading returns exactly the saved records, which reconstruct
the original products. -/
theorem serialization_roundtrip_spec :
    (∀ p : Product, Product.from_dict (Product.to_dict p) = p)
    ∧ (∀ (ps : List Product) (file : StateFile), ps ≠ [] →
        Storage.load_state (Storage.save_state (ps.map Product.to_dict) file)
          = Except.ok (ps.map Product.to_dict)
        ∧ (ps.map Product.to_dict).map Product.from_dict = ps) := by
  constructor
  · intro p
    rfl
  · intro ps file _
    refine ⟨rfl, ?_⟩
    rw [List.map_map]
    have h1 : ps.map (Product.from_dict ∘ Product.to_dict) = ps.map id :=
      List.map_congr_left (fun p _ => rfl)
    rw [h1, List.map_id]

/-- C9 witness: a one-record list whose optional fields are absent survives the
save/load round-trip. -/
theorem serialization_roundtrip_spec_witness :
    Product.from_dict (Product.to_dict prodA120) = prodA120
    ∧ Storage.load_state (Storage.save_state ([prodA120].map Product.to_dict)
          StateFile.absent)
        = Except.ok ([prodA120].map Product.to_dict)
    ∧ ([prodA120].map Product.to_dict).map Product.from_dict = [prodA120] := by
  refine ⟨serialization_roundtrip_spec.1 prodA120, ?_, ?_⟩
  · exact (serialization_roundtrip_spec.2 [prodA120] StateFile.absent (by simp)).1
  · exact (serialization_roundtrip_spec.2 [prodA120] StateFile.absent (by simp)).2

/-- C10: each sku lands in at most one classification — `new_products` carries
only current skus absent from the previous side, `removed_products` only
previous skus absent from the current side, `price_changes` only skus present
on both sides, so the three sku sets are pairwise disjoint. -/
theorem classification_disjoint_spec :
    ∀ (prev : List ProductDict) (cur : List Product),
      (∀ p ∈ (Differ.compare prev cur).new_products,
        p.sku ∈ cur.map Product.sku ∧ p.sku ∉ prev.map ProductDict.sku)
      ∧ (∀ p ∈ (Differ.compare prev cur).removed_products,
        p.sku ∈ prev.map ProductDict.sku ∧ p.sku ∉ cur.map Product.sku)
      ∧ (∀ pc ∈ (Differ.compare prev cur).price_changes,
        pc.product.sku ∈ cur.map Product.sku ∧ pc.product.sku ∈ prev.map ProductDict.sku)
      ∧ (∀ s : String,
        ¬ (s ∈ ((Differ.compare prev cur).new_products).map Product.sku
          ∧ s ∈ ((Differ.compare prev cur).removed_products).map Product.sku))
      ∧ (∀ s : String,
        ¬ (s ∈ ((Differ.compare prev cur).new_products).map Product.sku
          ∧ s ∈ ((Differ.compare prev cur).price_changes).map (fun pc => pc.product.sku)))
      ∧ (∀ s : String,
        ¬ (s ∈ ((Differ.compare prev cur).removed_products).map Product.sku
          ∧ s ∈ ((Differ.compare prev cur).price_changes).map
              (fun pc => pc.product.sku))) := by
  intro prev cur
  have hnewP : ∀ p ∈ (Differ.compare prev cur).new_products,
      hasKey (currentIndex cur) p.sku = true ∧ hasKey (previousIndex prev) p.sku = false := by
    intro p hp
    obtain ⟨hg, hh⟩ := mem_new_products.mp hp
    exact ⟨by rw [hasKey, hg]; rfl, hh⟩
  have hremP : ∀ p ∈ (Differ.compare prev cur).removed_products,
      hasKey (previousIndex prev) p.sku = true ∧ hasKey (currentIndex cur) p.sku = false := by
    intro p hp
    obtain ⟨hg, hh⟩ := mem_removed_products.mp hp
    exact ⟨by rw [hasKey, hg]; rfl, hh⟩
  have hpcP : ∀ pc ∈ (Differ.compare prev cur).price_changes,
      hasKey (currentIndex cur) pc.product.sku = true
        ∧ hasKey (previousIndex prev) pc.product.sku = true := by
    intro pc hpc
    obtain ⟨c, pd, hc, hpd, _, hpce⟩ := mem_price_changes.mp hpc
    have hps : pc.product = c := by rw [hpce]
    rw [hps]
    exact ⟨by rw [hasKey, hc]; rfl, by rw [hasKey, hpd]; rfl⟩
  refine ⟨?_, ?_, ?_, ?_, ?_, ?_⟩
  · intro p hp
    obtain ⟨h1, h2⟩ := hnewP p hp
    refine ⟨(hasKey_currentIndex cur p.sku).mp h1, ?_⟩
    intro hmem
    rw [(hasKey_previousIndex prev p.sku).mpr hmem] at h2
    exact absurd h2 (by simp)
  · intro p hp
    obtain ⟨h1, h2⟩ := hremP p hp
    refine ⟨(hasKey_previousIndex prev p.sku).mp h1, ?_⟩
    intro hmem
    rw [(hasKey_currentIndex cur p.sku).mpr hmem] at h2
    exact absurd h2 (by simp)
  · intro pc hpc
    obtain ⟨h1, h2⟩ := hpcP pc hpc
    exact ⟨(hasKey_currentIndex cur pc.product.sku).mp h1,
      (hasKey_previousIndex prev pc.product.sku).mp h2⟩
  · rintro s ⟨hn, hr⟩
    obtain ⟨p, hp, hps⟩ := List.mem_map.mp hn
    obtain ⟨q, hq, hqs⟩ := List.mem_map.mp hr
    have h1 := (hnewP p hp).2
    have h2 := (hremP q hq).1
    rw [hps] at h1
    rw [hqs] at h2
    rw [h2] at h1
    exact absurd h1 (by simp)
  · rintro s ⟨hn, hpcs⟩
    obtain ⟨p, hp, hps⟩ := List.mem_map.mp hn
    obtain ⟨pc, hpc, hpcs'⟩ := List.mem_map.mp hpcs
    have h1 := (hnewP p hp).2
    have h2 := (hpcP pc hpc).2
    rw [hps] at h1
    rw [hpcs'] at h2
    rw [h2] at h1
    exact absurd h1 (by simp)
  · rintro s ⟨hr, hpcs⟩
    obtain ⟨p, hp, hps⟩ := List.mem_map.mp hr
    obtain ⟨pc, hpc, hpcs'⟩ := List.mem_map.mp hpcs
    have h1 := (hremP p hp).2
    have h2 := (hpcP pc hpc).1
    rw [hps] at h1
    rw [hpcs'] at h2
    rw [h2] at h1
    exact absurd h1 (by simp)

/-- C10 witness: in the worked example the new record "B" is a current sku and
not a previous sku. -/
theorem classification_disjoint_spec_witness :
    prodB50.sku ∈ [prodA120, prodB50].map Product.sku
    ∧ prodB50.sku ∉ [dictA100].map ProductDict.sku :=
  (classification_disjoint_spec [dictA100] [prodA120, prodB50]).1 prodB50 (by decide)

end DigiScraper
